import Mathlib

/-!
Shallow embedding of the open-addressing hash table from
`src/include/policy.h`, `src/include/hash_map.h` and `src/include/hash_set.h`.

Machine integers (`std::size_t`) are modelled as `Nat`; the only places where
this matters are noted at the definitions.  `std::optional<T>` slots become
`Option`, the `std::vector<bool> deleted` bitmap becomes `List Bool`.
The C++ `while` loops of `find_index` are modelled with explicit fuel: for the
default `LinearProbing` policy the probe position after `t` advances is
`(start + t) % m`, which is periodic with period `m`, so a walk that has not
stopped within `m` steps never stops; `none` therefore marks a walk that loops
forever in the C++ code.

The containers are templated over `Hash` and `Equal`; we model `Equal` as
decidable equality on the key type and pass the hash function explicitly.
The `CollisionPolicy` template parameter is instantiated with its default,
`LinearProbing`, throughout the table model.
-/

namespace OA

/-- `LinearProbing` from src/include/policy.h lines 4-20: state is the current
index and the modulus. -/
structure LinearProbing where
  current : Nat
  mod : Nat
deriving DecidableEq

/-- `LinearProbing::operator++` (policy.h lines 15-19):
`current = (current + 1) % mod`. -/
def LinearProbing.inc (p : LinearProbing) : LinearProbing :=
  { current := (p.current + 1) % p.mod, mod := p.mod }

/-- `QuadraticProbing` from src/include/policy.h lines 21-38: state also
carries `step_number`, initialised to 1. -/
structure QuadraticProbing where
  current : Nat
  mod : Nat
  step_number : Nat
deriving DecidableEq

/-- `QuadraticProbing::operator++` (policy.h lines 33-38):
`current = (current + step_number * step_number) % mod; ++step_number`. -/
def QuadraticProbing.inc (p : QuadraticProbing) : QuadraticProbing :=
  { current := (p.current + p.step_number * p.step_number) % p.mod,
    mod := p.mod,
    step_number := p.step_number + 1 }

/-- Apply `QuadraticProbing.inc` (`operator++`) `n` times. -/
def QuadraticProbing.incN : Nat → QuadraticProbing → QuadraticProbing
  | 0, p => p
  | n + 1, p => (QuadraticProbing.incN n p).inc

/-- Sum of the first `n` squares `1² + 2² + ⋯ + n²`, the accumulated offset of
`n` quadratic advances. -/
def sumSq : Nat → Nat
  | 0 => 0
  | n + 1 => sumSq n + (n + 1) * (n + 1)

/-- The probing `while` loop shared by `HashMap::find_index` (hash_map.h lines
503-505) and `HashSet::find_index` (hash_set.h lines 417-419), for the default
`LinearProbing` policy: advance `current_ind = ++policy` until `stop` holds.
`fuel` bounds the number of iterations; since the linear probe position is
periodic with period `m`, fuel `m` is exact: `none` means the C++ loop never
terminates. -/
def probeWalk (m : Nat) (stop : Nat → Bool) : Nat → Nat → Option Nat
  | 0, _ => none
  | fuel + 1, ind =>
      if stop ind then some ind
      else probeWalk m stop fuel ((LinearProbing.mk ind m).inc).current

section HashMapModel

variable (K V : Type) [DecidableEq K]

/-- The private state of `HashMap` (hash_map.h lines 487-494): element count,
capacity hint (`map_max_size`), slot array (`hash_map`), tombstone bitmap
(`deleted`) and cached first live index (`first_ind`).  The slot array always
has physical length `map_max_size * 2` in the C++ code. -/
structure HashMap where
  map_size : Nat
  map_max_size : Nat
  hash_map : List (Option (K × V))
  deleted : List Bool
  first_ind : Nat
deriving DecidableEq

variable {K V}

/-- The `HashMap(expected_max_size, ...)` constructor (hash_map.h lines 38-47):
`hash_map(expected_max_size * 2)`, `deleted(expected_max_size * 2, true)`,
`map_size = 0` and `first_ind = map_max_size * 2` (member initialisers at
lines 488, 494). -/
def HashMap.init (expected_max_size : Nat) : HashMap K V :=
  { map_size := 0,
    map_max_size := expected_max_size,
    hash_map := List.replicate (expected_max_size * 2) none,
    deleted := List.replicate (expected_max_size * 2) true,
    first_ind := expected_max_size * 2 }

/-- Read `hash_map[i]`; all reads in the C++ code are in bounds, the default
`none` is never consulted on the executed paths. -/
def HashMap.slotAt (s : HashMap K V) (i : Nat) : Option (K × V) :=
  s.hash_map.getD i none

/-- Read `deleted[i]`. -/
def HashMap.delAt (s : HashMap K V) (i : Nat) : Bool :=
  s.deleted.getD i true

/-- A slot is live iff it is occupied and not tombstoned. -/
def HashMap.liveB (s : HashMap K V) (i : Nat) : Bool :=
  (s.slotAt i).isSome && !(s.delAt i)

/-- Number of live slots; the C++ `map_size` tracks exactly this. -/
def HashMap.countLive (s : HashMap K V) : Nat :=
  (List.range s.hash_map.length).countP (fun i => s.liveB i)

/-- `map_equal(hash_map[i]->first, key)` guarded by occupancy (the C++ code
only evaluates it after `hash_map[current_ind]` is known to be engaged). -/
def HashMap.keyMatch (s : HashMap K V) (k : K) (i : Nat) : Bool :=
  match s.slotAt i with
  | some e => decide (e.1 = k)
  | none => false

/-- The continuation condition of the probe loop, hash_map.h line 503:
`hash_map[i] && (!deleted[i] || !insert) && !map_equal(hash_map[i]->first, key)`. -/
def HashMap.continueProbe (s : HashMap K V) (k : K) (ins : Bool) (i : Nat) : Bool :=
  (s.slotAt i).isSome && (!(s.delAt i) || !ins) && !(s.keyMatch k i)

/-- `HashMap::find_index` (hash_map.h lines 496-507).  Returns
`some (map_max_size * 2)` for the absent sentinel, `some i` for a resolved
slot, and `none` when the C++ loop never terminates (see module comment);
`none` on the insert-with-zero-capacity path marks the `% 0` that the C++
code would perform there (unreachable through the public interface, which
rehashes before any insertion into a zero-capacity table). -/
def HashMap.find_index (hash : K → Nat) (s : HashMap K V) (k : K) (ins : Bool) :
    Option Nat :=
  if s.hash_map.length = 0 then
    if ins then none else some (s.map_max_size * 2)
  else
    match probeWalk s.hash_map.length (fun i => !(s.continueProbe k ins i))
        s.hash_map.length (hash k % s.hash_map.length) with
    | none => none
    | some i =>
        some (if ins || ((s.slotAt i).isSome && !(s.delAt i) && s.keyMatch k i)
          then i else s.map_max_size * 2)

/-- `HashMap::load_factor` (hash_map.h lines 424-428):
`max_size() ? size() / float(bucket_count()) : 1` with
`bucket_count() = map_max_size * 2`; the `float` division is modelled
exactly in `ℚ`. -/
def HashMap.loadFactor (s : HashMap K V) : ℚ :=
  if s.map_max_size = 0 then 1
  else (s.map_size : ℚ) / ((s.map_max_size * 2 : Nat) : ℚ)

/-- The test of `HashMap::check_fullness` (hash_map.h line 563),
`load_factor() >= max_load_factor()`: the comparison
`size/(2·max) ≥ 0.5` (with the `max_size() ? … : 1` convention) holds exactly
when `map_max_size = 0 ∨ map_max_size ≤ map_size`.  The integer form keeps
the model executable; `check_fullness_cond_iff` proves it equivalent to the
`ℚ` load-factor comparison. -/
def HashMap.check_fullness_cond (s : HashMap K V) : Bool :=
  decide (s.map_max_size = 0) || decide (s.map_max_size ≤ s.map_size)

/-- `HashMap::update_after_insert` (hash_map.h lines 554-559):
`deleted[i] = false; first_ind = empty() ? i : min(first_ind, i); ++map_size`
(`empty()` reads `map_size` before the increment). -/
def HashMap.update_after_insert (s : HashMap K V) (to_update : Nat) : HashMap K V :=
  { s with
    deleted := s.deleted.set to_update false,
    first_ind := if s.map_size = 0 then to_update else min s.first_ind to_update,
    map_size := s.map_size + 1 }

/-- The body of `HashMap::emplace_impl` after `check_fullness()`
(hash_map.h lines 513-520): resolve an insertion slot, install the entry when
the slot is `!hash_map[ind] || deleted[ind]`, and report the slot and whether
a new entry was created. -/
def HashMap.emplace_body (hash : K → Nat) (s : HashMap K V) (k : K) (v : V) :
    HashMap K V × Nat × Bool :=
  match s.find_index hash k true with
  | none => (s, s.map_max_size * 2, false)
  | some insert_ind =>
      if !((s.slotAt insert_ind).isSome) || s.delAt insert_ind then
        (HashMap.update_after_insert
          { s with hash_map := s.hash_map.set insert_ind (some (k, v)) } insert_ind,
         insert_ind, true)
      else (s, insert_ind, false)

/-- The `new_size` computation of `HashMap::rehash` (hash_map.h lines 437-446). -/
def HashMap.newSizeFor (count : Nat) (s : HashMap K V) : Nat :=
  if count = 0 ∧ s.hash_map.length = 0 then 2
  else if count < s.map_size * 2 then s.map_size * 2 + 2
  else count + 1

/-- `HashMap::rehash` (hash_map.h lines 435-459) with the migration insert
abstracted: swap in fresh arrays of physical length `new_size * 2` with
`map_size = 0` and `first_ind = new_size * 2`, then walk the old arrays and
re-emplace every slot with `temp_map[i] && !temp_deleted[i]`.  The C++
migration calls the full `emplace`, which is supplied as `emp`. -/
def HashMap.rehashWith (emp : HashMap K V → K → V → HashMap K V × Nat × Bool)
    (count : Nat) (s : HashMap K V) : HashMap K V :=
  let new_size := s.newSizeFor count
  let fresh : HashMap K V :=
    { map_size := 0,
      map_max_size := new_size,
      hash_map := List.replicate (new_size * 2) none,
      deleted := List.replicate (new_size * 2) true,
      first_ind := new_size * 2 }
  (List.range s.hash_map.length).foldl
    (fun t i =>
      match s.slotAt i with
      | some e => if s.delAt i then t else (emp t e.1 e.2).1
      | none => t)
    fresh

/-- `HashMap::emplace` = `check_fullness()` (hash_map.h lines 561-566:
`if (load_factor() >= max_load_factor()) rehash(map_max_size * 2)`) followed
by the emplace body.  `fuel` bounds the rehash/emplace recursion depth
(`emplace` → `rehash` → migration `emplace` → …); depth 2 reproduces the C++
behaviour on every state whose load factor stays below ½ during migration,
which holds on all states considered below. -/
def HashMap.emplaceF (hash : K → Nat) :
    Nat → HashMap K V → K → V → HashMap K V × Nat × Bool
  | 0, s, _, _ => (s, s.map_max_size * 2, false)
  | fuel + 1, s, k, v =>
      let s1 := if s.check_fullness_cond
        then HashMap.rehashWith (fun t a b => HashMap.emplaceF hash fuel t a b)
          (s.map_max_size * 2) s
        else s
      HashMap.emplace_body hash s1 k v

/-- The public insertion (`insert`/`emplace`/`emplace_impl`, hash_map.h lines
143-157 and 509-521): returns the new state, the slot index of the iterator in
the result, and the `inserted` flag. -/
def HashMap.emplace (hash : K → Nat) (s : HashMap K V) (k : K) (v : V) :
    HashMap K V × Nat × Bool :=
  HashMap.emplaceF hash 2 s k v

/-- The public `HashMap::rehash(count)` (hash_map.h lines 435-459). -/
def HashMap.rehash (hash : K → Nat) (count : Nat) (s : HashMap K V) : HashMap K V :=
  HashMap.rehashWith (fun t a b => HashMap.emplaceF hash 1 t a b) count s

/-- `HashMap::reserve` (hash_map.h lines 461-466):
`if (count > size() * 2 + 2) rehash(count)`. -/
def HashMap.reserve (hash : K → Nat) (count : Nat) (s : HashMap K V) : HashMap K V :=
  if s.map_size * 2 + 2 < count then HashMap.rehash hash count s else s

/-- `HashMap::clear` (hash_map.h lines 131-141): fresh arrays of the same
physical length, `map_size = 0` and `first_ind = 0` (line 140 — not the end
sentinel). -/
def HashMap.clear (s : HashMap K V) : HashMap K V :=
  { map_size := 0,
    map_max_size := s.map_max_size,
    hash_map := List.replicate (s.map_max_size * 2) none,
    deleted := List.replicate (s.map_max_size * 2) true,
    first_ind := 0 }

/-- The do-while of `CommonIterator::operator++` (hash_map.h lines 613-619)
after the initial increment: starting at `j`, skip forward while the slot is
in range and not live.  `fuel` bounds the loop; it advances `j` towards
`hash_map.length`, so any fuel exceeding `length - j` reproduces the C++
loop exactly (structural fuel keeps the definition kernel-computable). -/
def HashMap.iterFromF (s : HashMap K V) : Nat → Nat → Nat
  | 0, j => j
  | fuel + 1, j =>
      if j < s.hash_map.length then
        if s.liveB j then j else s.iterFromF fuel (j + 1)
      else j

/-- The iterator skip loop with always-sufficient fuel. -/
def HashMap.iterFrom (s : HashMap K V) (j : Nat) : Nat :=
  s.iterFromF (s.hash_map.length + 1) j

/-- `CommonIterator::operator++` (hash_map.h lines 613-619): increment, then
skip empty and tombstoned slots. -/
def HashMap.iterNext (s : HashMap K V) (current : Nat) : Nat :=
  s.iterFrom (current + 1)

/-- `HashMap::erase(const_iterator pos)` (hash_map.h lines 268-280): if the
slot is occupied, tombstone it, decrement `map_size`, advance a copy of the
iterator past non-live slots (over the updated bitmap), and if the erased slot
was `first_ind`, move `first_ind` to the advanced position.  The C++
`--map_size` underflows on a tombstoned slot with `map_size == 0`; `Nat`
subtraction differs there, but `erase(key)` only ever reaches this function on
a live slot. -/
def HashMap.erase_at (s : HashMap K V) (pos : Nat) : HashMap K V :=
  if (s.slotAt pos).isSome then
    let s' : HashMap K V :=
      { s with deleted := s.deleted.set pos true, map_size := s.map_size - 1 }
    let next := s'.iterNext pos
    if pos = s.first_ind then { s' with first_ind := next } else s'
  else s

/-- `HashMap::erase(const key_type &)` (hash_map.h lines 289-299): look the
key up; if the iterator differs from `cend()` (slot index `map_max_size * 2`),
erase it and return 1, else return 0.  `none` marks a lookup whose probe loop
never terminates. -/
def HashMap.erase_key (hash : K → Nat) (s : HashMap K V) (k : K) :
    Option (HashMap K V × Nat) :=
  match s.find_index hash k false with
  | none => none
  | some ind =>
      if ind = s.map_max_size * 2 then some (s, 0)
      else some (s.erase_at ind, 1)

/-- The sequence of slot indices visited by iterating from `begin()`
(at `first_ind`, hash_map.h lines 90-93) until `end()`; fuel
`length + 1` suffices because positions strictly increase. -/
def HashMap.iterPosAux (s : HashMap K V) : Nat → Nat → List Nat
  | 0, _ => []
  | fuel + 1, j =>
      if j < s.hash_map.length then j :: s.iterPosAux fuel (s.iterNext j)
      else []

/-- All iterator positions of a full `begin()`-to-`end()` traversal. -/
def HashMap.iterPositions (s : HashMap K V) : List Nat :=
  s.iterPosAux (s.hash_map.length + 1) s.first_ind

/-- The keys yielded by dereferencing each visited position (`operator*`,
hash_map.h lines 630-633). -/
def HashMap.iterKeys (s : HashMap K V) : List K :=
  s.iterPositions.filterMap (fun j => (s.slotAt j).map Prod.fst)

/-- The installed state of `emplace_body`: slot write plus
`update_after_insert`. -/
def HashMap.install (s : HashMap K V) (i : Nat) (k : K) (v : V) : HashMap K V :=
  HashMap.update_after_insert
    { s with hash_map := s.hash_map.set i (some (k, v)) } i

/-- The tombstoned state inside `erase_at`. -/
def HashMap.tomb (s : HashMap K V) (i : Nat) : HashMap K V :=
  { s with deleted := s.deleted.set i true, map_size := s.map_size - 1 }

/-- One step of the rehash migration loop (hash_map.h lines 454-458),
specialised to the `emplaceF hash 1` insert that the public `rehash` uses. -/
def HashMap.migStep (hash : K → Nat) (sOld : HashMap K V)
    (t : HashMap K V) (i : Nat) : HashMap K V :=
  match sOld.slotAt i with
  | some e => if sOld.delAt i then t else (HashMap.emplaceF hash 1 t e.1 e.2).1
  | none => t

/-- `HashMap::contains` (hash_map.h lines 344-347): `find(key) != cend()`,
i.e. the resolved index differs from the sentinel. -/
def HashMap.containsB (hash : K → Nat) (s : HashMap K V) (k : K) : Bool :=
  match s.find_index hash k false with
  | none => false
  | some ind => !(decide (ind = s.map_max_size * 2))

/-- Looked-up mapped value: the `->second` of a successful `find`. -/
def HashMap.findValue (hash : K → Nat) (s : HashMap K V) (k : K) : Option V :=
  match s.find_index hash k false with
  | none => none
  | some ind =>
      if ind = s.map_max_size * 2 then none
      else (s.slotAt ind).map Prod.snd

/-- Table states reachable through the public interface: construction with any
capacity hint, insertion, erasure by key (when its lookup terminates), clear,
rehash and reserve. -/
inductive HashMap.Reachable (hash : K → Nat) : HashMap K V → Prop where
  | init (n : Nat) : HashMap.Reachable hash (HashMap.init n)
  | emplace {s : HashMap K V} (k : K) (v : V) :
      HashMap.Reachable hash s → HashMap.Reachable hash (s.emplace hash k v).1
  | erase {s s' : HashMap K V} (k : K) (r : Nat) :
      HashMap.Reachable hash s → s.erase_key hash k = some (s', r) →
      HashMap.Reachable hash s'
  | clear {s : HashMap K V} :
      HashMap.Reachable hash s → HashMap.Reachable hash s.clear
  | rehash {s : HashMap K V} (count : Nat) :
      HashMap.Reachable hash s → HashMap.Reachable hash (s.rehash hash count)
  | reserve {s : HashMap K V} (count : Nat) :
      HashMap.Reachable hash s → HashMap.Reachable hash (s.reserve hash count)

end HashMapModel

section HashSetModel

variable (K : Type) [DecidableEq K]

/-- The private state of `HashSet` (hash_set.h lines 401-408): the same layout
as `HashMap` with bare keys in the slots. -/
structure HashSet where
  set_size : Nat
  set_max_size : Nat
  hash_set : List (Option K)
  deleted : List Bool
  first_ind : Nat
deriving DecidableEq

variable {K}

/-- The `HashSet(expected_max_size, ...)` constructor (hash_set.h lines 36-45)
with `first_ind = set_max_size * 2` (line 408). -/
def HashSet.init (expected_max_size : Nat) : HashSet K :=
  { set_size := 0,
    set_max_size := expected_max_size,
    hash_set := List.replicate (expected_max_size * 2) none,
    deleted := List.replicate (expected_max_size * 2) true,
    first_ind := expected_max_size * 2 }

/-- Read `hash_set[i]`. -/
def HashSet.slotAt (s : HashSet K) (i : Nat) : Option K :=
  s.hash_set.getD i none

/-- Read `deleted[i]`. -/
def HashSet.delAt (s : HashSet K) (i : Nat) : Bool :=
  s.deleted.getD i true

/-- A slot is live iff occupied and not tombstoned. -/
def HashSet.liveB (s : HashSet K) (i : Nat) : Bool :=
  (s.slotAt i).isSome && !(s.delAt i)

/-- `set_equal(*hash_set[i], key)` guarded by occupancy. -/
def HashSet.keyMatch (s : HashSet K) (k : K) (i : Nat) : Bool :=
  match s.slotAt i with
  | some e => decide (e = k)
  | none => false

/-- The continuation condition of the probe loop, hash_set.h line 417. -/
def HashSet.continueProbe (s : HashSet K) (k : K) (ins : Bool) (i : Nat) : Bool :=
  (s.slotAt i).isSome && (!(s.delAt i) || !ins) && !(s.keyMatch k i)

/-- `HashSet::find_index` (hash_set.h lines 410-421), modelled exactly like
`HashMap.find_index`. -/
def HashSet.find_index (hash : K → Nat) (s : HashSet K) (k : K) (ins : Bool) :
    Option Nat :=
  if s.hash_set.length = 0 then
    if ins then none else some (s.set_max_size * 2)
  else
    match probeWalk s.hash_set.length (fun i => !(s.continueProbe k ins i))
        s.hash_set.length (hash k % s.hash_set.length) with
    | none => none
    | some i =>
        some (if ins || ((s.slotAt i).isSome && !(s.delAt i) && s.keyMatch k i)
          then i else s.set_max_size * 2)

/-- `HashSet::load_factor` (hash_set.h lines 341-345). -/
def HashSet.loadFactor (s : HashSet K) : ℚ :=
  if s.set_max_size = 0 then 1
  else (s.set_size : ℚ) / ((s.set_max_size * 2 : Nat) : ℚ)

/-- The test of `HashSet::check_fullness` (hash_set.h line 432), in the same
executable integer form as `HashMap.check_fullness_cond`. -/
def HashSet.check_fullness_cond (s : HashSet K) : Bool :=
  decide (s.set_max_size = 0) || decide (s.set_max_size ≤ s.set_size)

/-- `HashSet::update_after_insert` (hash_set.h lines 423-428). -/
def HashSet.update_after_insert (s : HashSet K) (to_update : Nat) : HashSet K :=
  { s with
    deleted := s.deleted.set to_update false,
    first_ind := if s.set_size = 0 then to_update else min s.first_ind to_update,
    set_size := s.set_size + 1 }

/-- The body of `HashSet::insert` after `check_fullness()` (hash_set.h lines
144-151). -/
def HashSet.insert_body (hash : K → Nat) (s : HashSet K) (k : K) :
    HashSet K × Nat × Bool :=
  match s.find_index hash k true with
  | none => (s, s.set_max_size * 2, false)
  | some insert_ind =>
      if !((s.slotAt insert_ind).isSome) || s.delAt insert_ind then
        (HashSet.update_after_insert
          { s with hash_set := s.hash_set.set insert_ind (some k) } insert_ind,
         insert_ind, true)
      else (s, insert_ind, false)

/-- The `new_size` computation of `HashSet::rehash` (hash_set.h lines 353-362). -/
def HashSet.newSizeFor (count : Nat) (s : HashSet K) : Nat :=
  if count = 0 ∧ s.hash_set.length = 0 then 2
  else if count < s.set_size * 2 then s.set_size * 2 + 2
  else count + 1

/-- `HashSet::rehash` (hash_set.h lines 351-375) with the migration insert
abstracted, exactly as in `HashMap.rehashWith`. -/
def HashSet.rehashWith (ins : HashSet K → K → HashSet K × Nat × Bool)
    (count : Nat) (s : HashSet K) : HashSet K :=
  let new_size := s.newSizeFor count
  let fresh : HashSet K :=
    { set_size := 0,
      set_max_size := new_size,
      hash_set := List.replicate (new_size * 2) none,
      deleted := List.replicate (new_size * 2) true,
      first_ind := new_size * 2 }
  (List.range s.hash_set.length).foldl
    (fun t i =>
      match s.slotAt i with
      | some e => if s.delAt i then t else (ins t e).1
      | none => t)
    fresh

/-- `HashSet::insert` = `check_fullness()` (hash_set.h lines 430-435) followed
by the insert body, with the same fuel discipline as `HashMap.emplaceF`. -/
def HashSet.insertF (hash : K → Nat) : Nat → HashSet K → K → HashSet K × Nat × Bool
  | 0, s, _ => (s, s.set_max_size * 2, false)
  | fuel + 1, s, k =>
      let s1 := if s.check_fullness_cond
        then HashSet.rehashWith (fun t a => HashSet.insertF hash fuel t a)
          (s.set_max_size * 2) s
        else s
      HashSet.insert_body hash s1 k

/-- The public `HashSet::insert` (hash_set.h lines 141-165). -/
def HashSet.insertKey (hash : K → Nat) (s : HashSet K) (k : K) :
    HashSet K × Nat × Bool :=
  HashSet.insertF hash 2 s k

/-- The public `HashSet::rehash(count)` (hash_set.h lines 351-375). -/
def HashSet.rehash (hash : K → Nat) (count : Nat) (s : HashSet K) : HashSet K :=
  HashSet.rehashWith (fun t a => HashSet.insertF hash 1 t a) count s

/-- The do-while of `SetIterator::operator++` (hash_set.h lines 472-478),
with the same structural fuel as `HashMap.iterFromF`. -/
def HashSet.iterFromF (s : HashSet K) : Nat → Nat → Nat
  | 0, j => j
  | fuel + 1, j =>
      if j < s.hash_set.length then
        if s.liveB j then j else s.iterFromF fuel (j + 1)
      else j

/-- The set-iterator skip loop with always-sufficient fuel. -/
def HashSet.iterFrom (s : HashSet K) (j : Nat) : Nat :=
  s.iterFromF (s.hash_set.length + 1) j

/-- `SetIterator::operator++`: increment then skip non-live slots. -/
def HashSet.iterNext (s : HashSet K) (current : Nat) : Nat :=
  s.iterFrom (current + 1)

/-- `HashSet::erase(const_iterator pos)` (hash_set.h lines 215-227). -/
def HashSet.erase_at (s : HashSet K) (pos : Nat) : HashSet K :=
  if (s.slotAt pos).isSome then
    let s' : HashSet K :=
      { s with deleted := s.deleted.set pos true, set_size := s.set_size - 1 }
    let next := s'.iterNext pos
    if pos = s.first_ind then { s' with first_ind := next } else s'
  else s

/-- `HashSet::erase(const key_type &)` (hash_set.h lines 237-247). -/
def HashSet.erase_key (hash : K → Nat) (s : HashSet K) (k : K) :
    Option (HashSet K × Nat) :=
  match s.find_index hash k false with
  | none => none
  | some ind =>
      if ind = s.set_max_size * 2 then some (s, 0)
      else some (s.erase_at ind, 1)

end HashSetModel

/-! ### Concrete instantiations used in the claim analyses

All histories instantiate the templates at `Key = T = std::size_t` with the
identity hash (the common implementation of `std::hash` for integers) and the
default `LinearProbing` policy, and drive the tables exclusively through the
public interface. -/

/-- Identity hash on `Nat` keys. -/
def idHash : Nat → Nat := fun n => n

/-- History for the duplicate-key scenario: capacity hint 4 (physical length
8); insert key 0, insert key 8 (same start slot 0, lands at slot 1), erase
key 0 (slot 0 becomes a tombstone), then insert key 8 again. -/
def dupA : HashMap Nat Nat := HashMap.init 4

def dupB : HashMap Nat Nat := (dupA.emplace idHash 0 0).1

def dupC : HashMap Nat Nat := (dupB.emplace idHash 8 1).1

def dupD : HashMap Nat Nat := ((dupC.erase_key idHash 0).getD (dupC, 0)).1

def dupE : HashMap Nat Nat := (dupD.emplace idHash 8 2).1

/-- History reaching load factor exactly ½: capacity hint 2 (physical length
4), two insertions. -/
def halfA : HashMap Nat Nat := HashMap.init 2

def halfB : HashMap Nat Nat := (halfA.emplace idHash 0 0).1

def halfC : HashMap Nat Nat := (halfB.emplace idHash 1 0).1

/-- History for the stale-value scenario: keys 7 and 15 collide at start slot
7 of a physical-length-8 table; after erasing 7 and re-inserting 15 (which
installs a second live copy of 15 in 7's tombstone), three more insertions
drive the table through the growth rehash. -/
def c3a : HashMap Nat Nat := HashMap.init 4

def c3b : HashMap Nat Nat := (c3a.emplace idHash 7 1).1

def c3c : HashMap Nat Nat := (c3b.emplace idHash 15 2).1

def c3d : HashMap Nat Nat := ((c3c.erase_key idHash 7).getD (c3c, 0)).1

def c3e : HashMap Nat Nat := (c3d.emplace idHash 15 99).1

def c3f : HashMap Nat Nat := (c3e.emplace idHash 2 10).1

def c3g : HashMap Nat Nat := (c3f.emplace idHash 3 11).1

def c3h : HashMap Nat Nat := (c3g.emplace idHash 4 12).1

/-- History for the tombstone-reuse scenario of the spec: keys 0 (`a`),
8 (`b`), 16 (`c`) all hash to start slot 0 of a physical-length-8 table. -/
def c5a : HashMap Nat Nat := HashMap.init 4

def c5b : HashMap Nat Nat := (c5a.emplace idHash 0 0).1

def c5c : HashMap Nat Nat := (c5b.emplace idHash 8 1).1

def c5d : HashMap Nat Nat := ((c5c.erase_key idHash 0).getD (c5c, 0)).1

/-- The full insertion result for key 16: state, slot index, inserted flag. -/
def c5e : HashMap Nat Nat × Nat × Bool := c5d.emplace idHash 16 2

/-- History filling every slot of a physical-length-4 table with occupied
slots (two tombstones, two live): insert 0, insert 1, erase 0, erase 1,
insert 2, insert 3. -/
def fullA : HashMap Nat Nat := HashMap.init 2

def fullB : HashMap Nat Nat := (fullA.emplace idHash 0 0).1

def fullC : HashMap Nat Nat := (fullB.emplace idHash 1 0).1

def fullD : HashMap Nat Nat := ((fullC.erase_key idHash 0).getD (fullC, 0)).1

def fullE : HashMap Nat Nat := ((fullD.erase_key idHash 1).getD (fullD, 0)).1

def fullF : HashMap Nat Nat := (fullE.emplace idHash 2 0).1

def fullG : HashMap Nat Nat := (fullF.emplace idHash 3 0).1

/-- A cleared table with capacity hint 2: `clear` resets `first_ind` to 0
while the physical length stays 4. -/
def clearA : HashMap Nat Nat := (HashMap.init 2 : HashMap Nat Nat).clear

/-! ### Generic facts about the linear probe walk -/

/-- A successful walk stops at an in-range index satisfying `stop`. -/
theorem probeWalk_sound {m : Nat} {stop : Nat → Bool} :
    ∀ {fuel ind i : Nat}, ind < m → probeWalk m stop fuel ind = some i →
      stop i = true ∧ i < m := by
  intro fuel
  induction fuel with
  | zero => intro ind i _ h; simp [probeWalk] at h
  | succ f ih =>
      intro ind i hind h
      rw [probeWalk] at h
      by_cases hs : stop ind = true
      · rw [if_pos hs] at h
        cases h
        exact ⟨hs, hind⟩
      · rw [if_neg hs] at h
        have hm : 0 < m := by omega
        exact ih (Nat.mod_lt _ hm) h

/-- If some position within the fuel budget satisfies `stop`, the walk
terminates. -/
theorem probeWalk_total {m : Nat} {stop : Nat → Bool} :
    ∀ {fuel ind : Nat}, ind < m → (∃ t, t < fuel ∧ stop ((ind + t) % m) = true) →
      ∃ i, probeWalk m stop fuel ind = some i := by
  intro fuel
  induction fuel with
  | zero => intro ind _ hex; obtain ⟨t, ht, _⟩ := hex; omega
  | succ f ih =>
      intro ind hind hex
      rw [probeWalk]
      by_cases hs : stop ind = true
      · exact ⟨ind, if_pos hs⟩
      · rw [if_neg hs]
        obtain ⟨t, ht, hstop⟩ := hex
        have hm : 0 < m := by omega
        have ht0 : t ≠ 0 := by
          intro h0
          rw [h0, Nat.add_zero, Nat.mod_eq_of_lt hind] at hstop
          exact hs hstop
        apply ih (Nat.mod_lt _ hm)
        refine ⟨t - 1, by omega, ?_⟩
        have heq : ((ind + 1) % m + (t - 1)) % m = (ind + t) % m := by
          rw [Nat.mod_add_mod]
          congr 1
          omega
        show stop (((ind + 1) % m + (t - 1)) % m) = true
        rw [heq]
        exact hstop

/-- The linear probe sequence from any start covers every index within `m`
steps: a stopping index anywhere yields a stopping offset below `m`. -/
theorem probe_cover {m j ind : Nat} (stop : Nat → Bool) (hj : j < m)
    (hstop : stop j = true) (hind : ind < m) :
    ∃ t, t < m ∧ stop ((ind + t) % m) = true := by
  refine ⟨if ind ≤ j then j - ind else j + m - ind, ?_, ?_⟩
  · split <;> omega
  · have hm : 0 < m := by omega
    split
    · rw [show ind + (j - ind) = j by omega, Nat.mod_eq_of_lt hj]
      exact hstop
    · rw [show ind + (j + m - ind) = j + m by omega, Nat.add_mod_right,
        Nat.mod_eq_of_lt hj]
      exact hstop

/-! ### List helper lemmas -/

theorem getD_set_self {α : Type} {l : List α} {i : Nat} (a d : α)
    (h : i < l.length) : (l.set i a)[i]?.getD d = a := by
  rw [List.getElem?_set_self', List.getElem?_eq_getElem h]
  rfl

theorem getD_set_ne {α : Type} {l : List α} {i j : Nat} (a d : α)
    (h : i ≠ j) : (l.set i a)[j]?.getD d = l[j]?.getD d := by
  rw [List.getElem?_set_ne h]

theorem getD_replicate {α : Type} {n i : Nat} (a d : α) :
    (List.replicate n a)[i]?.getD d = if i < n then a else d := by
  split
  · next h =>
      rw [List.getElem?_eq_getElem (by simpa using h)]
      simp
  · next h =>
      have hle : (List.replicate n a).length ≤ i := by
        simpa using Nat.le_of_not_lt h
      simp [List.getElem?_eq_none hle]

theorem countP_range_congr {n : Nat} {p q : Nat → Bool}
    (h : ∀ j, j < n → p j = q j) :
    (List.range n).countP p = (List.range n).countP q :=
  List.countP_congr (by
    intro x hx
    rw [h x (List.mem_range.mp hx)])

/-- Counting after flipping a single position from `false` to `true`. -/
theorem countP_range_flip_true {n i : Nat} {p q : Nat → Bool} (hi : i < n)
    (hne : ∀ j, j < n → j ≠ i → p j = q j) (hp : p i = false) (hq : q i = true) :
    (List.range n).countP q = (List.range n).countP p + 1 := by
  induction n with
  | zero => omega
  | succ n ih =>
      rw [List.range_succ, List.countP_append, List.countP_append]
      by_cases hin : i = n
      · subst hin
        have hcc : (List.range i).countP q = (List.range i).countP p :=
          countP_range_congr (fun j hj => (hne j (by omega) (by omega)).symm)
        simp only [List.countP_singleton, hp, hq, hcc]
        simp
      · have hi' : i < n := by omega
        have hpq : p n = q n := hne n (by omega) (by omega)
        rw [ih hi' (fun j hj hji => hne j (by omega) hji)]
        simp only [List.countP_singleton, ← hpq]
        omega

/-- Counting after flipping a single position from `true` to `false`. -/
theorem countP_range_flip_false {n i : Nat} {p q : Nat → Bool} (hi : i < n)
    (hne : ∀ j, j < n → j ≠ i → p j = q j) (hp : p i = true) (hq : q i = false) :
    (List.range n).countP p = (List.range n).countP q + 1 :=
  countP_range_flip_true hi (fun j hj hji => (hne j hj hji).symm) hq hp

/-! ### State lemmas for the `HashMap` model -/

namespace HashMap

variable {K V : Type} [DecidableEq K]

theorem liveB_of_len_le (s : HashMap K V) {j : Nat}
    (h : s.hash_map.length ≤ j) : s.liveB j = false := by
  simp [HashMap.liveB, HashMap.slotAt, List.getD, List.getElem?_eq_none h]

theorem countLive_le (s : HashMap K V) : s.countLive ≤ s.hash_map.length := by
  simpa [HashMap.countLive] using
    List.countP_le_length (p := fun i => s.liveB i) (l := List.range s.hash_map.length)

theorem exists_not_live (s : HashMap K V)
    (h : s.countLive < s.hash_map.length) :
    ∃ j, j < s.hash_map.length ∧ s.liveB j = false := by
  by_contra hc
  push_neg at hc
  have hall : ∀ a ∈ List.range s.hash_map.length, (fun i => s.liveB i) a = true := by
    intro a ha
    have := hc a (List.mem_range.mp ha)
    simpa using this
  have hc2 := List.countP_eq_length.mpr hall
  rw [List.length_range] at hc2
  rw [HashMap.countLive] at h
  omega

theorem countLive_eq_zero_of_dead (s : HashMap K V)
    (h : ∀ j, j < s.hash_map.length → s.liveB j = false) : s.countLive = 0 := by
  rw [HashMap.countLive]
  exact List.countP_eq_zero.mpr (by
    intro a ha
    simp [h a (List.mem_range.mp ha)])

theorem all_dead_of_countLive_zero (s : HashMap K V)
    (h : s.countLive = 0) : ∀ j, s.liveB j = false := by
  intro j
  by_cases hj : j < s.hash_map.length
  · rw [HashMap.countLive] at h
    have := List.countP_eq_zero.mp h j (List.mem_range.mpr hj)
    simpa using this
  · exact s.liveB_of_len_le (by omega)

theorem exists_live_of_countLive_pos (s : HashMap K V)
    (h : 0 < s.countLive) :
    ∃ j, j < s.hash_map.length ∧ s.liveB j = true := by
  rw [HashMap.countLive] at h
  obtain ⟨a, ha, hpa⟩ := List.countP_pos_iff.mp h
  exact ⟨a, List.mem_range.mp ha, hpa⟩

theorem install_def (s : HashMap K V) (i : Nat) (k : K) (v : V) :
    s.install i k v =
      { map_size := s.map_size + 1,
        map_max_size := s.map_max_size,
        hash_map := s.hash_map.set i (some (k, v)),
        deleted := s.deleted.set i false,
        first_ind := if s.map_size = 0 then i else min s.first_ind i } := rfl

theorem install_liveB_self (s : HashMap K V) {i : Nat} (k : K) (v : V)
    (hi : i < s.hash_map.length) (hd : s.deleted.length = s.hash_map.length) :
    (s.install i k v).liveB i = true := by
  simp [install_def, HashMap.liveB, HashMap.slotAt, HashMap.delAt,
    getD_set_self (some (k, v)) none hi,
    getD_set_self false true (show i < s.deleted.length by omega)]

theorem install_liveB_ne (s : HashMap K V) {i j : Nat} (k : K) (v : V)
    (hij : i ≠ j) : (s.install i k v).liveB j = s.liveB j := by
  simp [install_def, HashMap.liveB, HashMap.slotAt, HashMap.delAt,
    getD_set_ne (some (k, v)) none hij, getD_set_ne false true hij]

theorem install_countLive (s : HashMap K V) {i : Nat} (k : K) (v : V)
    (hi : i < s.hash_map.length) (hd : s.deleted.length = s.hash_map.length)
    (hnl : s.liveB i = false) :
    (s.install i k v).countLive = s.countLive + 1 := by
  have hlen : (s.install i k v).hash_map.length = s.hash_map.length := by
    simp [install_def]
  rw [HashMap.countLive, HashMap.countLive, hlen]
  exact countP_range_flip_true hi
    (fun j _ hji => (s.install_liveB_ne k v (fun h => hji h.symm)).symm)
    hnl (s.install_liveB_self k v hi hd)

theorem tomb_liveB_self (s : HashMap K V) {i : Nat}
    (hi : i < s.deleted.length) : (s.tomb i).liveB i = false := by
  simp [tomb, HashMap.liveB, HashMap.delAt, getD_set_self true true hi]

theorem tomb_liveB_ne (s : HashMap K V) {i j : Nat} (hij : i ≠ j) :
    (s.tomb i).liveB j = s.liveB j := by
  simp [tomb, HashMap.liveB, HashMap.slotAt, HashMap.delAt,
    getD_set_ne true true hij]

theorem tomb_countLive (s : HashMap K V) {i : Nat}
    (hi : i < s.hash_map.length) (hd : s.deleted.length = s.hash_map.length)
    (hl : s.liveB i = true) :
    s.countLive = (s.tomb i).countLive + 1 := by
  have hlen : (s.tomb i).hash_map.length = s.hash_map.length := by simp [tomb]
  rw [HashMap.countLive, HashMap.countLive, hlen]
  exact countP_range_flip_false hi
    (fun j _ hji => (s.tomb_liveB_ne (fun h => hji h.symm)).symm)
    hl (s.tomb_liveB_self (by omega))

theorem loadFactor_ge_half_iff (s : HashMap K V) :
    (1 : ℚ) / 2 ≤ s.loadFactor ↔
      (s.map_max_size = 0 ∨ s.map_max_size ≤ s.map_size) := by
  rw [HashMap.loadFactor]
  by_cases h0 : s.map_max_size = 0
  · simp [h0]
    norm_num
  · rw [if_neg h0]
    have hp : (0 : ℚ) < ((s.map_max_size * 2 : Nat) : ℚ) := by
      have : 0 < s.map_max_size * 2 := by omega
      exact_mod_cast this
    rw [div_le_div_iff₀ (by norm_num) hp]
    constructor
    · intro h
      right
      have h2 : ((s.map_max_size * 2 : Nat) : ℚ) ≤ (s.map_size : ℚ) * 2 := by
        linarith
      have h3 : s.map_max_size * 2 ≤ s.map_size * 2 := by exact_mod_cast h2
      omega
    · intro h
      rcases h with h | h
      · omega
      · have h2 : ((s.map_max_size * 2 : Nat) : ℚ) ≤ ((s.map_size * 2 : Nat) : ℚ) := by
          exact_mod_cast (show s.map_max_size * 2 ≤ s.map_size * 2 by omega)
        push_cast at h2 ⊢
        linarith

theorem check_fullness_cond_iff (s : HashMap K V) :
    s.check_fullness_cond = true ↔ (1 : ℚ) / 2 ≤ s.loadFactor := by
  rw [loadFactor_ge_half_iff]
  simp [HashMap.check_fullness_cond]

theorem loadFactor_le_half (s : HashMap K V) (h0 : 0 < s.map_max_size)
    (h : s.map_size ≤ s.map_max_size) : s.loadFactor ≤ 1 / 2 := by
  rw [HashMap.loadFactor, if_neg (by omega)]
  have hp : (0 : ℚ) < ((s.map_max_size * 2 : Nat) : ℚ) := by
    have : 0 < s.map_max_size * 2 := by omega
    exact_mod_cast this
  rw [div_le_div_iff₀ hp (by norm_num)]
  have h2 : (s.map_size : ℚ) ≤ (s.map_max_size : ℚ) := by exact_mod_cast h
  push_cast
  linarith

/-- Full characterisation of the iterator skip loop: the result is the first
position `≥ j` that is live or out of range, and it never passes the end. -/
theorem iterFrom_spec (s : HashMap K V) :
    ∀ j, j ≤ s.hash_map.length →
      j ≤ s.iterFrom j ∧ s.iterFrom j ≤ s.hash_map.length ∧
      (s.iterFrom j < s.hash_map.length → s.liveB (s.iterFrom j) = true) ∧
      (∀ t, j ≤ t → t < s.iterFrom j → s.liveB t = false) := by
  have main : ∀ fuel j, s.hash_map.length < j + fuel → j ≤ s.hash_map.length →
      j ≤ s.iterFromF fuel j ∧ s.iterFromF fuel j ≤ s.hash_map.length ∧
      (s.iterFromF fuel j < s.hash_map.length →
        s.liveB (s.iterFromF fuel j) = true) ∧
      (∀ t, j ≤ t → t < s.iterFromF fuel j → s.liveB t = false) := by
    intro fuel
    induction fuel with
    | zero =>
        intro j hd hj
        exact absurd hd (by omega)
    | succ f ih =>
        intro j hd hj
        have hunf : s.iterFromF (f + 1) j =
            if j < s.hash_map.length then
              (if s.liveB j then j else s.iterFromF f (j + 1))
            else j := rfl
        by_cases hlt : j < s.hash_map.length
        · by_cases hlive : s.liveB j = true
          · rw [hunf, if_pos hlt, if_pos hlive]
            exact ⟨le_refl _, by omega, fun _ => hlive, fun t ht1 ht2 => by omega⟩
          · have hstep : s.iterFromF (f + 1) j = s.iterFromF f (j + 1) := by
              rw [hunf, if_pos hlt, if_neg hlive]
            obtain ⟨h1, h2, h3, h4⟩ := ih (j + 1) (by omega) (by omega)
            rw [hstep]
            refine ⟨by omega, h2, h3, ?_⟩
            intro t ht1 ht2
            by_cases htj : t = j
            · subst htj
              simpa using hlive
            · exact h4 t (by omega) ht2
        · rw [hunf, if_neg hlt]
          exact ⟨le_refl _, by omega, by omega, fun t ht1 ht2 => by omega⟩
  intro j hj
  exact main (s.hash_map.length + 1) j (by omega) hj

/-- In insert mode the probe stops exactly at non-live slots and key matches. -/
theorem continueProbe_insert (s : HashMap K V) (k : K) (i : Nat) :
    s.continueProbe k true i = (s.liveB i && !(s.keyMatch k i)) := by
  simp [HashMap.continueProbe, HashMap.liveB]

/-- In lookup mode the probe stops exactly at unoccupied slots and key
matches (tombstoned matches included). -/
theorem continueProbe_lookup (s : HashMap K V) (k : K) (i : Nat) :
    s.continueProbe k false i = ((s.slotAt i).isSome && !(s.keyMatch k i)) := by
  simp [HashMap.continueProbe]

/-- Insert-mode resolution succeeds whenever some slot is not live, and
returns an in-range slot at which the probe stops. -/
theorem find_index_insert_total (hash : K → Nat) (s : HashMap K V) (k : K)
    (hlen : 0 < s.hash_map.length)
    (hex : ∃ j, j < s.hash_map.length ∧ s.liveB j = false) :
    ∃ i, s.find_index hash k true = some i ∧ i < s.hash_map.length ∧
      s.continueProbe k true i = false := by
  obtain ⟨j, hj, hjf⟩ := hex
  have hstopj : (fun i => !(s.continueProbe k true i)) j = true := by
    simp [continueProbe_insert, hjf]
  have hstart : hash k % s.hash_map.length < s.hash_map.length :=
    Nat.mod_lt _ hlen
  obtain ⟨t, ht, hstopt⟩ :=
    probe_cover (fun i => !(s.continueProbe k true i)) hj hstopj hstart
  obtain ⟨i, hwalk⟩ :=
    @probeWalk_total s.hash_map.length (fun i => !(s.continueProbe k true i))
      s.hash_map.length (hash k % s.hash_map.length) hstart ⟨t, ht, hstopt⟩
  obtain ⟨hstopi, him⟩ := probeWalk_sound hstart hwalk
  refine ⟨i, ?_, him, by simpa using hstopi⟩
  rw [HashMap.find_index, if_neg (by omega), hwalk]
  simp

/-- Every successful lookup yields either the absent sentinel or an in-range
live slot holding the key. -/
theorem find_index_lookup_cases (hash : K → Nat) (s : HashMap K V) (k : K)
    {r : Nat} (h : s.find_index hash k false = some r) :
    r = s.map_max_size * 2 ∨
      (r < s.hash_map.length ∧ s.liveB r = true ∧ s.keyMatch k r = true) := by
  rw [HashMap.find_index] at h
  by_cases hlen : s.hash_map.length = 0
  · rw [if_pos hlen] at h
    simp at h
    left
    omega
  · rw [if_neg hlen] at h
    have hstart : hash k % s.hash_map.length < s.hash_map.length :=
      Nat.mod_lt _ (by omega)
    rcases hwalk : probeWalk s.hash_map.length
        (fun i => !(s.continueProbe k false i)) s.hash_map.length
        (hash k % s.hash_map.length) with _ | i
    · rw [hwalk] at h
      simp at h
    · rw [hwalk] at h
      obtain ⟨hstopi, him⟩ := probeWalk_sound hstart hwalk
      simp only [Option.some.injEq] at h
      by_cases hc : ((s.slotAt i).isSome && !(s.delAt i) && s.keyMatch k i) = true
      · right
        have h123 : (s.slotAt i).isSome = true ∧ s.delAt i = false ∧
            s.keyMatch k i = true := by
          simpa [Bool.and_assoc] using hc
        rw [← h, if_pos (by simp [hc])]
        exact ⟨him, by simp [HashMap.liveB, h123.1, h123.2.1], h123.2.2⟩
      · left
        have hnc : ¬((false ||
            ((s.slotAt i).isSome && !(s.delAt i) && s.keyMatch k i)) = true) := by
          simpa using hc
        rw [← h, if_neg hnc]

/-! ### The structural invariant of reachable tables -/

/-- The bookkeeping facts maintained by every public operation: array lengths
agree and equal `map_max_size * 2`, `map_size` counts the live slots and stays
at or below the capacity hint, and `first_ind` is the least live index when
one exists (else the end sentinel, or `0` right after `clear`). -/
structure Inv (s : HashMap K V) : Prop where
  lenD : s.deleted.length = s.hash_map.length
  lenS : s.hash_map.length = s.map_max_size * 2
  sizeEq : s.map_size = s.countLive
  sizeLe : s.map_size ≤ s.map_max_size
  firstZero : s.map_size = 0 → s.first_ind = s.map_max_size * 2 ∨ s.first_ind = 0
  firstLeast : 0 < s.map_size →
    s.liveB s.first_ind = true ∧ ∀ j, s.liveB j = true → s.first_ind ≤ j

/-- Freshly allocated states (constructor, `clear`, the swapped-in arrays of
`rehash`) satisfy the invariant. -/
theorem Inv_fresh (M f : Nat) (hf : f = M * 2 ∨ f = 0) :
    Inv ({ map_size := 0, map_max_size := M,
           hash_map := List.replicate (M * 2) none,
           deleted := List.replicate (M * 2) true,
           first_ind := f } : HashMap K V) := by
  refine ⟨by simp, by simp, ?_, by simp, fun _ => by simpa using hf,
    fun h => by simp at h⟩
  symm
  apply countLive_eq_zero_of_dead
  intro j _
  simp [HashMap.liveB, HashMap.slotAt, getD_replicate]

theorem init_Inv (n : Nat) : Inv (HashMap.init n : HashMap K V) := by
  have := Inv_fresh (K := K) (V := V) n (n * 2) (Or.inl rfl)
  simpa [HashMap.init] using this

theorem clear_Inv (s : HashMap K V) : Inv s.clear := by
  have := Inv_fresh (K := K) (V := V) s.map_max_size 0 (Or.inr rfl)
  simpa [HashMap.clear] using this

/-- Reduction of `emplace_body` once the resolved slot is known. -/
theorem emplace_body_eq_of_find (hash : K → Nat) (s : HashMap K V) (k : K)
    (v : V) {i : Nat} (hfind : s.find_index hash k true = some i) :
    HashMap.emplace_body hash s k v =
      if (!((s.slotAt i).isSome) || s.delAt i) then (s.install i k v, i, true)
      else (s, i, false) := by
  rw [HashMap.emplace_body, hfind]
  rfl

/-- Core step: the emplace body preserves the invariant when there is head
room, and grows the size by at most one. -/
theorem emplace_body_inv (hash : K → Nat) (s : HashMap K V) (k : K) (v : V)
    (hI : Inv s) (hlt : s.map_size < s.map_max_size) :
    Inv (HashMap.emplace_body hash s k v).1 ∧
    (HashMap.emplace_body hash s k v).1.map_size ≤ s.map_size + 1 ∧
    (HashMap.emplace_body hash s k v).1.map_max_size = s.map_max_size := by
  have hlen : 0 < s.hash_map.length := by
    rw [hI.lenS]; omega
  have hcount : s.countLive < s.hash_map.length := by
    rw [hI.lenS, ← hI.sizeEq]; omega
  obtain ⟨i, hfind, hi, hstop⟩ :=
    find_index_insert_total hash s k hlen (s.exists_not_live hcount)
  rw [emplace_body_eq_of_find hash s k v hfind]
  by_cases hb : (!((s.slotAt i).isSome) || s.delAt i) = true
  · rw [if_pos hb]
    show Inv (s.install i k v) ∧ (s.install i k v).map_size ≤ s.map_size + 1 ∧
      (s.install i k v).map_max_size = s.map_max_size
    have hnl : s.liveB i = false := by
      rcases Bool.or_eq_true_iff.mp hb with h1 | h1
      · have h2 : (s.slotAt i).isSome = false := by simpa using h1
        simp [HashMap.liveB, h2]
      · simp [HashMap.liveB, h1]
    have hlenD' : (s.install i k v).deleted.length =
        (s.install i k v).hash_map.length := by
      simp [install_def, hI.lenD]
    have hlenS' : (s.install i k v).hash_map.length = s.map_max_size * 2 := by
      simp [install_def, hI.lenS]
    have hcl : (s.install i k v).countLive = s.countLive + 1 :=
      s.install_countLive k v hi hI.lenD hnl
    refine ⟨⟨hlenD', hlenS', ?_, ?_, ?_, ?_⟩, ?_, ?_⟩
    · show s.map_size + 1 = _
      rw [hcl, hI.sizeEq]
    · show s.map_size + 1 ≤ s.map_max_size
      omega
    · intro h0
      exact absurd h0 (by show s.map_size + 1 ≠ 0; omega)
    · intro _
      by_cases hsz : s.map_size = 0
      · constructor
        · show (s.install i k v).liveB
            (if s.map_size = 0 then i else min s.first_ind i) = true
          rw [if_pos hsz]
          exact s.install_liveB_self k v hi hI.lenD
        · intro j hj
          show (if s.map_size = 0 then i else min s.first_ind i) ≤ j
          rw [if_pos hsz]
          by_cases hji : j = i
          · omega
          · rw [s.install_liveB_ne k v (fun h => hji h.symm)] at hj
            have hdead := s.all_dead_of_countLive_zero (by rw [← hI.sizeEq, hsz])
            rw [hdead j] at hj
            cases hj
      · obtain ⟨hlf, hleast⟩ := hI.firstLeast (by omega)
        constructor
        · show (s.install i k v).liveB
            (if s.map_size = 0 then i else min s.first_ind i) = true
          rw [if_neg hsz]
          rcases le_total s.first_ind i with hc | hc
          · rw [min_eq_left hc]
            by_cases hfi : s.first_ind = i
            · rw [hfi]
              exact s.install_liveB_self k v hi hI.lenD
            · rw [s.install_liveB_ne k v (fun h => hfi h.symm)]
              exact hlf
          · rw [min_eq_right hc]
            exact s.install_liveB_self k v hi hI.lenD
        · intro j hj
          show (if s.map_size = 0 then i else min s.first_ind i) ≤ j
          rw [if_neg hsz]
          by_cases hji : j = i
          · subst hji
            exact min_le_right _ _
          · rw [s.install_liveB_ne k v (fun h => hji h.symm)] at hj
            exact le_trans (min_le_left _ _) (hleast j hj)
    · show s.map_size + 1 ≤ s.map_size + 1
      omega
    · rfl
  · rw [if_neg hb]
    show Inv s ∧ s.map_size ≤ s.map_size + 1 ∧ s.map_max_size = s.map_max_size
    exact ⟨hI, by omega, rfl⟩

/-- Unfolding of a single-fuel insertion. -/
theorem emplaceF_one (hash : K → Nat) (s : HashMap K V) (k : K) (v : V) :
    HashMap.emplaceF hash 1 s k v =
      HashMap.emplace_body hash
        (if s.check_fullness_cond
         then HashMap.rehashWith (fun t a b => HashMap.emplaceF hash 0 t a b)
           (s.map_max_size * 2) s
         else s) k v := rfl

/-- The public `rehash` is the fold of `migStep` over the old slots, started
from the freshly allocated table. -/
theorem rehash_eq_fold (hash : K → Nat) (count : Nat) (s : HashMap K V) :
    s.rehash hash count =
      (List.range s.hash_map.length).foldl (HashMap.migStep hash s)
        { map_size := 0,
          map_max_size := s.newSizeFor count,
          hash_map := List.replicate (s.newSizeFor count * 2) none,
          deleted := List.replicate (s.newSizeFor count * 2) true,
          first_ind := s.newSizeFor count * 2 } := rfl

/-- The migration fold preserves the invariant and inserts at most one live
entry per live old slot, provided the target has room for all of them. -/
theorem fold_mig (hash : K → Nat) (sOld : HashMap K V) :
    ∀ (l : List Nat) (t : HashMap K V), Inv t →
      t.map_size + l.countP (fun i => sOld.liveB i) ≤ t.map_max_size →
      Inv (l.foldl (HashMap.migStep hash sOld) t) ∧
      (l.foldl (HashMap.migStep hash sOld) t).map_size ≤
        t.map_size + l.countP (fun i => sOld.liveB i) ∧
      (l.foldl (HashMap.migStep hash sOld) t).map_max_size = t.map_max_size := by
  intro l
  induction l with
  | nil =>
      intro t hI _
      exact ⟨hI, by simp, rfl⟩
  | cons i rest ih =>
      intro t hI hle
      rcases hslot : sOld.slotAt i with _ | e
      · have hstep : HashMap.migStep hash sOld t i = t := by
          rw [HashMap.migStep, hslot]
        have hlive : sOld.liveB i = false := by
          simp [HashMap.liveB, hslot]
        have hcp : (i :: rest).countP (fun j => sOld.liveB j) =
            rest.countP (fun j => sOld.liveB j) := by
          rw [List.countP_cons_of_neg]
          simp [hlive]
        rw [List.foldl_cons, hstep]
        rw [hcp] at hle ⊢
        exact ih t hI hle
      · by_cases hdel : sOld.delAt i = true
        · have hstep : HashMap.migStep hash sOld t i = t := by
            rw [HashMap.migStep, hslot]
            show (if sOld.delAt i = true then t
              else (HashMap.emplaceF hash 1 t e.1 e.2).1) = t
            rw [if_pos hdel]
          have hlive : sOld.liveB i = false := by
            simp [HashMap.liveB, hdel]
          have hcp : (i :: rest).countP (fun j => sOld.liveB j) =
              rest.countP (fun j => sOld.liveB j) := by
            rw [List.countP_cons_of_neg]
            simp [hlive]
          rw [List.foldl_cons, hstep]
          rw [hcp] at hle ⊢
          exact ih t hI hle
        · have hlive : sOld.liveB i = true := by
            simp [HashMap.liveB, hslot, hdel]
          have hcp : (i :: rest).countP (fun j => sOld.liveB j) =
              rest.countP (fun j => sOld.liveB j) + 1 := by
            rw [List.countP_cons_of_pos]
            simp [hlive]
          rw [hcp] at hle
          have hroom : t.map_size < t.map_max_size := by omega
          have htrig : ¬(t.check_fullness_cond = true) := by
            simp only [HashMap.check_fullness_cond, Bool.or_eq_true,
              decide_eq_true_eq]
            omega
          have hstep : HashMap.migStep hash sOld t i =
              (HashMap.emplace_body hash t e.1 e.2).1 := by
            rw [HashMap.migStep, hslot]
            show (if sOld.delAt i = true then t
              else (HashMap.emplaceF hash 1 t e.1 e.2).1) =
              (HashMap.emplace_body hash t e.1 e.2).1
            rw [if_neg hdel, emplaceF_one, if_neg htrig]
          obtain ⟨hI', hsz', hmx'⟩ := emplace_body_inv hash t e.1 e.2 hI hroom
          rw [List.foldl_cons, hstep]
          obtain ⟨hIf, hszf, hmxf⟩ := ih (HashMap.emplace_body hash t e.1 e.2).1
            hI' (by omega)
          exact ⟨hIf, by omega, by omega⟩

/-- The public `rehash` preserves the invariant, never grows the live count,
and sets the capacity hint to `newSizeFor`. -/
theorem rehash_inv (hash : K → Nat) (count : Nat) (s : HashMap K V)
    (hI : Inv s) :
    Inv (s.rehash hash count) ∧ (s.rehash hash count).map_size ≤ s.map_size ∧
    (s.rehash hash count).map_max_size = s.newSizeFor count := by
  rw [rehash_eq_fold]
  have hfresh := Inv_fresh (K := K) (V := V) (s.newSizeFor count)
    (s.newSizeFor count * 2) (Or.inl rfl)
  have hsize_le : s.map_size ≤ s.newSizeFor count := by
    have hc := s.countLive_le
    rw [HashMap.newSizeFor]
    split
    · next h =>
        rw [hI.sizeEq]
        omega
    · split
      · omega
      · next h => omega
  have hcountP : (List.range s.hash_map.length).countP (fun i => s.liveB i) =
      s.countLive := rfl
  obtain ⟨hIf, hszf, hmxf⟩ := fold_mig hash s (List.range s.hash_map.length)
    { map_size := 0,
      map_max_size := s.newSizeFor count,
      hash_map := List.replicate (s.newSizeFor count * 2) none,
      deleted := List.replicate (s.newSizeFor count * 2) true,
      first_ind := s.newSizeFor count * 2 } hfresh
    (by
      show 0 + _ ≤ s.newSizeFor count
      rw [hcountP, ← hI.sizeEq]
      omega)
  refine ⟨hIf, ?_, ?_⟩
  · rw [hcountP, ← hI.sizeEq] at hszf
    simpa using hszf
  · simpa using hmxf

theorem newSizeFor_pos (count : Nat) (s : HashMap K V) :
    0 < s.newSizeFor count := by
  rw [HashMap.newSizeFor]
  split
  · omega
  · split <;> omega

/-- Unfolding of the public insertion: growth check first, then the body. -/
theorem emplace_eq (hash : K → Nat) (s : HashMap K V) (k : K) (v : V) :
    HashMap.emplace hash s k v =
      HashMap.emplace_body hash
        (if s.check_fullness_cond
         then s.rehash hash (s.map_max_size * 2) else s) k v := rfl

/-- The public insertion preserves the invariant and leaves a strictly
positive capacity hint. -/
theorem emplace_inv (hash : K → Nat) (s : HashMap K V) (k : K) (v : V)
    (hI : Inv s) :
    Inv (s.emplace hash k v).1 ∧ 0 < (s.emplace hash k v).1.map_max_size := by
  rw [emplace_eq]
  by_cases htrig : s.check_fullness_cond = true
  · rw [if_pos htrig]
    obtain ⟨hI1, hsz1, hmx1⟩ := rehash_inv hash (s.map_max_size * 2) s hI
    have hns : s.map_size < s.newSizeFor (s.map_max_size * 2) := by
      have hle := hI.sizeLe
      rw [HashMap.newSizeFor]
      split
      · omega
      · split <;> omega
    have hlt : (s.rehash hash (s.map_max_size * 2)).map_size <
        (s.rehash hash (s.map_max_size * 2)).map_max_size := by
      rw [hmx1]
      omega
    obtain ⟨hI2, _, hmx2⟩ :=
      emplace_body_inv hash (s.rehash hash (s.map_max_size * 2)) k v hI1 hlt
    refine ⟨hI2, ?_⟩
    rw [hmx2, hmx1]
    exact newSizeFor_pos _ s
  · rw [if_neg htrig]
    have hcases : ¬(s.map_max_size = 0 ∨ s.map_max_size ≤ s.map_size) := by
      simpa [HashMap.check_fullness_cond] using htrig
    push_neg at hcases
    obtain ⟨hI2, _, hmx2⟩ := emplace_body_inv hash s k v hI (by omega)
    refine ⟨hI2, ?_⟩
    rw [hmx2]
    omega

/-- Reduction of `erase_at` on an occupied slot. -/
theorem erase_at_eq (s : HashMap K V) (pos : Nat)
    (h : (s.slotAt pos).isSome = true) :
    s.erase_at pos =
      if pos = s.first_ind
      then { s.tomb pos with first_ind := (s.tomb pos).iterNext pos }
      else s.tomb pos := by
  rw [HashMap.erase_at, if_pos h]
  rfl

/-- Reduction of `erase_key` once the lookup result is known. -/
theorem erase_key_eq (hash : K → Nat) (s : HashMap K V) (k : K) {ind : Nat}
    (hf : s.find_index hash k false = some ind) :
    s.erase_key hash k =
      if ind = s.map_max_size * 2 then some (s, 0)
      else some (s.erase_at ind, 1) := by
  rw [HashMap.erase_key, hf]

/-- Erasure by key preserves the invariant. -/
theorem erase_key_inv (hash : K → Nat) (s : HashMap K V) (k : K)
    {s' : HashMap K V} {r : Nat} (hI : Inv s)
    (h : s.erase_key hash k = some (s', r)) : Inv s' := by
  rcases hf : s.find_index hash k false with _ | ind
  · rw [HashMap.erase_key, hf] at h
    simp at h
  · rw [erase_key_eq hash s k hf] at h
    by_cases hsent : ind = s.map_max_size * 2
    · rw [if_pos hsent] at h
      simp only [Option.some.injEq, Prod.mk.injEq] at h
      rw [← h.1]
      exact hI
    · rw [if_neg hsent] at h
      simp only [Option.some.injEq, Prod.mk.injEq] at h
      rw [← h.1]
      rcases find_index_lookup_cases hash s k hf with hl | ⟨hind, hlive, _⟩
      · exact absurd hl hsent
      · have hsome : (s.slotAt ind).isSome = true := by
          have hl2 := hlive
          simp only [HashMap.liveB, Bool.and_eq_true] at hl2
          exact hl2.1
        rw [erase_at_eq s ind hsome]
        have hdellen : ind < s.deleted.length := by
          rw [hI.lenD]
          exact hind
        have htlen : (s.tomb ind).hash_map.length = s.hash_map.length := rfl
        have htlenD : (s.tomb ind).deleted.length = s.hash_map.length := by
          simp [HashMap.tomb, hI.lenD]
        have hszpos : 0 < s.map_size := by
          rw [hI.sizeEq, HashMap.countLive]
          exact List.countP_pos_iff.mpr ⟨ind, List.mem_range.mpr hind, hlive⟩
        have hcl : s.countLive = (s.tomb ind).countLive + 1 :=
          s.tomb_countLive hind hI.lenD hlive
        have hsz'' : s.map_size - 1 = (s.tomb ind).countLive := by
          have := hI.sizeEq
          omega
        have htombdead : (s.tomb ind).liveB ind = false :=
          s.tomb_liveB_self hdellen
        by_cases hfi : ind = s.first_ind
        · rw [if_pos hfi]
          obtain ⟨hsp1, hsp2, hsp3, hsp4⟩ :=
            iterFrom_spec (s.tomb ind) (ind + 1) (by rw [htlen]; omega)
          by_cases hone : s.map_size = 1
          · have hdead0 : (s.tomb ind).countLive = 0 := by omega
            have halldead := (s.tomb ind).all_dead_of_countLive_zero hdead0
            have hend : (s.tomb ind).iterFrom (ind + 1) =
                (s.tomb ind).hash_map.length := by
              by_contra hne
              have hlt2 : (s.tomb ind).iterFrom (ind + 1) <
                  (s.tomb ind).hash_map.length := by omega
              have := hsp3 hlt2
              rw [halldead _] at this
              cases this
            refine ⟨by simpa [htlenD] using htlen.symm ▸ rfl, ?_, ?_, ?_, ?_, ?_⟩
            · show (s.tomb ind).hash_map.length = s.map_max_size * 2
              rw [htlen, hI.lenS]
            · show s.map_size - 1 = _
              rw [hsz'']
              rfl
            · show s.map_size - 1 ≤ s.map_max_size
              have := hI.sizeLe
              omega
            · intro _
              left
              show (s.tomb ind).iterNext ind = s.map_max_size * 2
              rw [HashMap.iterNext, hend, htlen, hI.lenS]
            · intro hpos
              exact absurd hpos (by show ¬(0 < s.map_size - 1); omega)
          · have hdeadpos : 0 < (s.tomb ind).countLive := by omega
            obtain ⟨j, hj, hjlive⟩ :=
              (s.tomb ind).exists_live_of_countLive_pos hdeadpos
            have hjne : j ≠ ind := by
              intro hje
              rw [hje, htombdead] at hjlive
              cases hjlive
            have hjs : s.liveB j = true := by
              rw [← s.tomb_liveB_ne (fun he => hjne he.symm)]
              exact hjlive
            obtain ⟨hlf, hleast⟩ := hI.firstLeast hszpos
            have hjgt : ind + 1 ≤ j := by
              have := hleast j hjs
              rw [← hfi] at this
              omega
            have hflt : (s.tomb ind).iterFrom (ind + 1) <
                (s.tomb ind).hash_map.length := by
              by_contra hge
              have hfe : (s.tomb ind).iterFrom (ind + 1) =
                  (s.tomb ind).hash_map.length := by omega
              have := hsp4 j hjgt (by rw [hfe, htlen]; exact hj)
              rw [this] at hjlive
              cases hjlive
            refine ⟨by simpa [htlenD] using htlen.symm ▸ rfl, ?_, ?_, ?_, ?_, ?_⟩
            · show (s.tomb ind).hash_map.length = s.map_max_size * 2
              rw [htlen, hI.lenS]
            · show s.map_size - 1 = _
              rw [hsz'']
              rfl
            · show s.map_size - 1 ≤ s.map_max_size
              have := hI.sizeLe
              omega
            · intro hz
              exact absurd hz (by show ¬(s.map_size - 1 = 0); omega)
            · intro _
              refine ⟨hsp3 hflt, ?_⟩
              intro t ht
              have ht2 : (s.tomb ind).liveB t = true := ht
              have htne : t ≠ ind := by
                intro hte
                rw [hte, htombdead] at ht2
                cases ht2
              have hts : s.liveB t = true := by
                rw [← s.tomb_liveB_ne (fun he => htne he.symm)]
                exact ht2
              have htgt : ind + 1 ≤ t := by
                have := hleast t hts
                rw [← hfi] at this
                omega
              by_contra hcon
              push_neg at hcon
              have hcon2 : t < (s.tomb ind).iterFrom (ind + 1) := hcon
              have := hsp4 t htgt hcon2
              rw [this] at ht2
              cases ht2
        · rw [if_neg hfi]
          obtain ⟨hlf, hleast⟩ := hI.firstLeast hszpos
          have hfne : (s.tomb ind).liveB s.first_ind = true := by
            rw [s.tomb_liveB_ne hfi]
            exact hlf
          by_cases hone : s.map_size = 1
          · have hdead0 : (s.tomb ind).countLive = 0 := by omega
            have halldead := (s.tomb ind).all_dead_of_countLive_zero hdead0
            rw [halldead _] at hfne
            cases hfne
          · refine ⟨?_, ?_, ?_, ?_, ?_, ?_⟩
            · show (s.tomb ind).deleted.length = (s.tomb ind).hash_map.length
              rw [htlenD, htlen]
            · show (s.tomb ind).hash_map.length = s.map_max_size * 2
              rw [htlen, hI.lenS]
            · show s.map_size - 1 = _
              rw [hsz'']
            · show s.map_size - 1 ≤ s.map_max_size
              have := hI.sizeLe
              omega
            · intro hz
              exact absurd hz (by show ¬(s.map_size - 1 = 0); omega)
            · intro _
              refine ⟨hfne, ?_⟩
              intro t ht
              have htne : t ≠ ind := by
                intro hte
                rw [hte, htombdead] at ht
                cases ht
              have hts : s.liveB t = true := by
                rw [← s.tomb_liveB_ne (fun he => htne he.symm)]
                exact ht
              exact hleast t hts

theorem reserve_inv (hash : K → Nat) (count : Nat) (s : HashMap K V)
    (hI : Inv s) : Inv (s.reserve hash count) := by
  rw [HashMap.reserve]
  split
  · exact (rehash_inv hash count s hI).1
  · exact hI

/-- Every table reachable through the public interface satisfies the
structural invariant. -/
theorem Reachable_Inv (hash : K → Nat) {s : HashMap K V}
    (h : HashMap.Reachable hash s) : Inv s := by
  induction h with
  | init n => exact init_Inv n
  | emplace k v _ ih => exact (emplace_inv hash _ k v ih).1
  | erase k r _ hek ih => exact erase_key_inv hash _ k ih hek
  | clear _ ih => exact clear_Inv _
  | rehash count _ ih => exact (rehash_inv hash count _ ih).1
  | reserve count _ ih => exact reserve_inv hash count _ ih

/-- A lookup for a key with no live entry resolves to the absent sentinel
whenever the probe walk can stop at all (some slot unoccupied, or some
occupied slot holding the key — possibly tombstoned). -/
theorem find_index_absent (hash : K → Nat) (s : HashMap K V) (k : K)
    (hterm : s.hash_map.length = 0 ∨ ∃ j, j < s.hash_map.length ∧
      ((s.slotAt j).isSome = false ∨ s.keyMatch k j = true))
    (habsent : ∀ j, j < s.hash_map.length →
      ¬(s.liveB j = true ∧ s.keyMatch k j = true)) :
    s.find_index hash k false = some (s.map_max_size * 2) := by
  rcases hterm with hlen0 | ⟨j, hj, hstopj⟩
  · rw [HashMap.find_index, if_pos hlen0]
    rfl
  · have hlen : 0 < s.hash_map.length := by omega
    have hstop : (fun i => !(s.continueProbe k false i)) j = true := by
      show (!(s.continueProbe k false j)) = true
      rw [continueProbe_lookup]
      rcases hstopj with h1 | h1 <;> simp [h1]
    have hstart : hash k % s.hash_map.length < s.hash_map.length :=
      Nat.mod_lt _ hlen
    obtain ⟨t, ht, hstopt⟩ :=
      probe_cover (fun i => !(s.continueProbe k false i)) hj hstop hstart
    obtain ⟨i, hwalk⟩ :=
      @probeWalk_total s.hash_map.length (fun i => !(s.continueProbe k false i))
        s.hash_map.length (hash k % s.hash_map.length) hstart ⟨t, ht, hstopt⟩
    obtain ⟨_, him⟩ := probeWalk_sound hstart hwalk
    rw [HashMap.find_index, if_neg (by omega), hwalk]
    have hcond : ¬((false ||
        ((s.slotAt i).isSome && !(s.delAt i) && s.keyMatch k i)) = true) := by
      simp only [Bool.false_or, Bool.and_eq_true, Bool.not_eq_true']
      rintro ⟨⟨h1, h2⟩, h3⟩
      exact habsent i him ⟨by simp [HashMap.liveB, h1, h2], h3⟩
    exact congrArg some (if_neg hcond)

end HashMap

namespace HashSet

variable {K : Type} [DecidableEq K]

theorem continueProbe_lookup_set (s : HashSet K) (k : K) (i : Nat) :
    s.continueProbe k false i = ((s.slotAt i).isSome && !(s.keyMatch k i)) := by
  simp [HashSet.continueProbe]

/-- Set-side analogue of `HashMap.find_index_absent`. -/
theorem find_index_absent_set (hash : K → Nat) (s : HashSet K) (k : K)
    (hterm : s.hash_set.length = 0 ∨ ∃ j, j < s.hash_set.length ∧
      ((s.slotAt j).isSome = false ∨ s.keyMatch k j = true))
    (habsent : ∀ j, j < s.hash_set.length →
      ¬(s.liveB j = true ∧ s.keyMatch k j = true)) :
    s.find_index hash k false = some (s.set_max_size * 2) := by
  rcases hterm with hlen0 | ⟨j, hj, hstopj⟩
  · rw [HashSet.find_index, if_pos hlen0]
    rfl
  · have hlen : 0 < s.hash_set.length := by omega
    have hstop : (fun i => !(s.continueProbe k false i)) j = true := by
      show (!(s.continueProbe k false j)) = true
      rw [continueProbe_lookup_set]
      rcases hstopj with h1 | h1 <;> simp [h1]
    have hstart : hash k % s.hash_set.length < s.hash_set.length :=
      Nat.mod_lt _ hlen
    obtain ⟨t, ht, hstopt⟩ :=
      probe_cover (fun i => !(s.continueProbe k false i)) hj hstop hstart
    obtain ⟨i, hwalk⟩ :=
      @probeWalk_total s.hash_set.length (fun i => !(s.continueProbe k false i))
        s.hash_set.length (hash k % s.hash_set.length) hstart ⟨t, ht, hstopt⟩
    obtain ⟨_, him⟩ := probeWalk_sound hstart hwalk
    rw [HashSet.find_index, if_neg (by omega), hwalk]
    have hcond : ¬((false ||
        ((s.slotAt i).isSome && !(s.delAt i) && s.keyMatch k i)) = true) := by
      simp only [Bool.false_or, Bool.and_eq_true, Bool.not_eq_true']
      rintro ⟨⟨h1, h2⟩, h3⟩
      exact habsent i him ⟨by simp [HashSet.liveB, h1, h2], h3⟩
    exact congrArg some (if_neg hcond)

/-- Reduction of the set-side `erase_key` once the lookup result is known. -/
theorem erase_key_eq_set (hash : K → Nat) (s : HashSet K) (k : K) {ind : Nat}
    (hf : s.find_index hash k false = some ind) :
    s.erase_key hash k =
      if ind = s.set_max_size * 2 then some (s, 0)
      else some (s.erase_at ind, 1) := by
  rw [HashSet.erase_key, hf]

end HashSet

/-! ### Facts about the quadratic probing policy -/

theorem QuadraticProbing.incN_step_mod (n : Nat) (p : QuadraticProbing) :
    (QuadraticProbing.incN n p).step_number = p.step_number + n ∧
    (QuadraticProbing.incN n p).mod = p.mod := by
  induction n with
  | zero => exact ⟨rfl, rfl⟩
  | succ n ih =>
      refine ⟨?_, ?_⟩
      · show (QuadraticProbing.incN n p).step_number + 1 = p.step_number + (n + 1)
        rw [ih.1]
        omega
      · show (QuadraticProbing.incN n p).mod = p.mod
        exact ih.2

/-- After `n + 1` advances from start `s` the quadratic policy sits at
`(s + (1² + 2² + ⋯ + (n+1)²)) % m`. -/
theorem QuadraticProbing.incN_current (s m n : Nat) :
    (QuadraticProbing.incN (n + 1) (QuadraticProbing.mk s m 1)).current =
      (s + sumSq (n + 1)) % m := by
  induction n with
  | zero =>
      show (s + 1 * 1) % m = (s + sumSq 1) % m
      norm_num [sumSq]
  | succ n ih =>
      show ((QuadraticProbing.incN (n + 1) (QuadraticProbing.mk s m 1)).current +
          (QuadraticProbing.incN (n + 1) (QuadraticProbing.mk s m 1)).step_number *
          (QuadraticProbing.incN (n + 1) (QuadraticProbing.mk s m 1)).step_number) %
          (QuadraticProbing.incN (n + 1) (QuadraticProbing.mk s m 1)).mod =
        (s + sumSq (n + 2)) % m
      rw [ih, (QuadraticProbing.incN_step_mod (n + 1) (QuadraticProbing.mk s m 1)).1,
        (QuadraticProbing.incN_step_mod (n + 1) (QuadraticProbing.mk s m 1)).2,
        Nat.mod_add_mod]
      congr 1
      show s + sumSq (n + 1) + (1 + (n + 1)) * (1 + (n + 1)) = s + sumSq (n + 2)
      have h2 : 1 + (n + 1) = n + 2 := by omega
      have h3 : sumSq (n + 2) = sumSq (n + 1) + (n + 2) * (n + 2) := rfl
      rw [h2, h3]
      ring

/-! ### Claim analyses -/

/-- Claim C1, refuted (code bug): key uniqueness fails on a reachable table.
After constructing a `HashMap` with capacity hint 4 (physical length 8),
inserting key 0 (slot 0), inserting key 8 (same start slot, lands at slot 1),
erasing key 0 (slot 0 becomes a tombstone) and inserting key 8 again, the
insert walk of `find_index` stops at the tombstone at slot 0 before reaching
the live copy of key 8 at slot 1, and installs a second live entry for key 8:
both slots 0 and 1 are live and hold key 8, and `map_size` is 2.  Every step
uses the public interface, so the state is reachable. -/
theorem C1_uniqueness_code_bug :
    HashMap.Reachable idHash dupE ∧
    dupC.erase_key idHash 0 = some (dupD, 1) ∧
    dupE.liveB 0 = true ∧ dupE.liveB 1 = true ∧
    dupE.slotAt 0 = some (8, 2) ∧ dupE.slotAt 1 = some (8, 1) ∧
    dupE.map_size = 2 := by
  have h1 : dupC.erase_key idHash 0 = some (dupD, 1) := by decide
  refine ⟨?_, h1, by decide, by decide, by decide, by decide, by decide⟩
  exact HashMap.Reachable.emplace 8 2
    (HashMap.Reachable.erase 0 1
      (HashMap.Reachable.emplace 8 1
        (HashMap.Reachable.emplace 0 0 (HashMap.Reachable.init 4))) h1)

/-- Claim C2, counterexample: after the second insertion into a table with
capacity hint 2 (physical length 4) the load factor is exactly ½, not
strictly below ½ as the claim states.  (The rehash happens lazily at the
start of the *next* insertion.) -/
theorem C2_load_factor_counterexample :
    halfC.loadFactor = 1 / 2 ∧ ¬(halfC.loadFactor < 1 / 2) ∧
    halfC.map_size = 2 ∧ halfC.hash_map.length = 4 := by
  have h1 : halfC.map_size = 2 := by decide
  have h2 : halfC.map_max_size = 2 := by decide
  have h3 : halfC.loadFactor = 1 / 2 := by
    rw [HashMap.loadFactor, h1, h2]
    norm_num
  exact ⟨h3, by rw [h3]; exact lt_irrefl _, h1, by decide⟩

/-- Claim C2, amended: after every insertion into a reachable table the load
factor is at most ½ (equality is reached, see the counterexample), and when
the pre-insertion load factor has reached ½ the rehash is performed before
the new entry is placed (the insertion is the emplace body applied to the
rehashed table). -/
theorem C2_load_factor_amended {K V : Type} [DecidableEq K] (hash : K → Nat)
    (s : HashMap K V) (h : HashMap.Reachable hash s) (k : K) (v : V) :
    (s.emplace hash k v).1.loadFactor ≤ 1 / 2 ∧
    ((1 : ℚ) / 2 ≤ s.loadFactor →
      s.emplace hash k v =
        HashMap.emplace_body hash (s.rehash hash (s.map_max_size * 2)) k v) := by
  have hI := HashMap.Reachable_Inv hash h
  obtain ⟨hI', hmax'⟩ := HashMap.emplace_inv hash s k v hI
  constructor
  · exact HashMap.loadFactor_le_half _ hmax' hI'.sizeLe
  · intro htrig
    rw [HashMap.emplace_eq,
      if_pos ((HashMap.check_fullness_cond_iff s).mpr htrig)]

/-- Witness for C2: the amended statement applied to the concrete reachable
table `HashMap.init 1` and the insertion of `(0, 0)`. -/
theorem C2_load_factor_amended_witness :
    ((HashMap.init 1 : HashMap Nat Nat).emplace idHash 0 0).1.loadFactor ≤ 1 / 2 ∧
    ((1 : ℚ) / 2 ≤ (HashMap.init 1 : HashMap Nat Nat).loadFactor →
      (HashMap.init 1 : HashMap Nat Nat).emplace idHash 0 0 =
        HashMap.emplace_body idHash
          ((HashMap.init 1 : HashMap Nat Nat).rehash idHash
            ((HashMap.init 1 : HashMap Nat Nat).map_max_size * 2)) 0 0) :=
  C2_load_factor_amended idHash (HashMap.init 1) (HashMap.Reachable.init 1) 0 0

/-- Claim C3, refuted (code bug): `find` can return a stale entry for a key
that was never erased.  Keys 7 and 15 collide at start slot 7 of a
physical-length-8 table.  After insert (7,1), insert (15,2), erase 7,
insert (15,99) — which `find_index` installs as a *second* live copy of 15
into 7's tombstone (`inserted = true`, value 99 is the entry last installed
for 15) — two fillers (2,10), (3,11) raise the live count to 4, and the next
insertion (4,12) triggers the growth rehash.  The migration re-emplaces the
old slots in index order, keeps the stale copy (15,2) from slot 0 and drops
(15,99); afterwards `find(15)` yields value 2 although the entry last
installed for 15 was (15,99) and 15 was never erased. -/
theorem C3_round_trip_code_bug :
    HashMap.Reachable idHash c3h ∧
    c3c.erase_key idHash 7 = some (c3d, 1) ∧
    c3d.emplace idHash 15 99 = (c3e, 7, true) ∧
    c3e.findValue idHash 15 = some 99 ∧
    c3h.findValue idHash 15 = some 2 := by
  have h1 : c3c.erase_key idHash 7 = some (c3d, 1) := by decide
  refine ⟨?_, h1, by decide, by decide, by decide⟩
  exact HashMap.Reachable.emplace 4 12
    (HashMap.Reachable.emplace 3 11
      (HashMap.Reachable.emplace 2 10
        (HashMap.Reachable.emplace 15 99
          (HashMap.Reachable.erase 7 1
            (HashMap.Reachable.emplace 15 2
              (HashMap.Reachable.emplace 7 1 (HashMap.Reachable.init 4))) h1))))

/-- Claim C4, refuted (code bug): rehash does not always preserve
`live_count`.  On the reachable duplicate-key table of C1 (two live slots,
both holding key 8), an explicit `rehash(8)` migrates the first copy and
silently drops the second (its `emplace` finds the key already present), so
`map_size` falls from 2 to 1 although nothing was erased. -/
theorem C4_rehash_code_bug :
    HashMap.Reachable idHash dupE ∧
    dupE.map_size = 2 ∧
    (dupE.rehash idHash 8).map_size = 1 := by
  have h1 : dupC.erase_key idHash 0 = some (dupD, 1) := by decide
  refine ⟨?_, by decide, by decide⟩
  exact HashMap.Reachable.emplace 8 2
    (HashMap.Reachable.erase 0 1
      (HashMap.Reachable.emplace 8 1
        (HashMap.Reachable.emplace 0 0 (HashMap.Reachable.init 4))) h1)

/-- Claim C5, confirmed: the concrete tombstone-reuse scenario.  Keys 0
(`a`), 8 (`b`) and 16 (`c`) all hash to start slot 0 of the physical-length-8
table (identity hash mod 8).  After inserting `a` (slot 0) and `b`
(slot 0+1), erasing `a` leaves a tombstone at slot 0; inserting `c` reuses
exactly that slot (`find_index` returns 0 and the entry is installed), lookup
of `a` reports absent, and `b` and `c` are both findable. -/
theorem C5_tombstone_reuse_confirmed :
    idHash 0 % 8 = 0 ∧ idHash 8 % 8 = 0 ∧ idHash 16 % 8 = 0 ∧
    c5b.slotAt 0 = some (0, 0) ∧
    c5c.slotAt 1 = some (8, 1) ∧
    c5c.erase_key idHash 0 = some (c5d, 1) ∧
    c5d.delAt 0 = true ∧ c5d.slotAt 0 = some (0, 0) ∧
    c5e.2.1 = 0 ∧ c5e.2.2 = true ∧
    c5e.1.slotAt 0 = some (16, 2) ∧ c5e.1.delAt 0 = false ∧
    c5e.1.containsB idHash 0 = false ∧
    c5e.1.containsB idHash 8 = true ∧
    c5e.1.containsB idHash 16 = true := by
  decide

/-- Claim C6, refuted (code bug): iteration does not yield each live key
exactly once on every reachable table.  On the duplicate-key table of C1 the
traversal from `begin()` to `end()` visits the two live slots 0 and 1 and
yields key 8 twice. -/
theorem C6_iteration_code_bug :
    HashMap.Reachable idHash dupE ∧
    dupE.iterKeys = [8, 8] ∧
    dupE.iterPositions = [0, 1] := by
  have h1 : dupC.erase_key idHash 0 = some (dupD, 1) := by decide
  refine ⟨?_, by decide, by decide⟩
  exact HashMap.Reachable.emplace 8 2
    (HashMap.Reachable.erase 0 1
      (HashMap.Reachable.emplace 8 1
        (HashMap.Reachable.emplace 0 0 (HashMap.Reachable.init 4))) h1)

/-- Claim C7, confirmed: `LinearProbing`'s advance returns
`(current + 1) % modulus`; the quadratic policy's position after `n + 1`
advances from start `s` is `(s + (1² + ⋯ + (n+1)²)) % m`, so the successive
deltas are 1, 4, 9, 16, …; in particular over modulus 8 the first candidates
after `s` are `(s+1) % 8`, `(s+5) % 8`, `(s+14) % 8`, `(s+30) % 8`. -/
theorem C7_probing_policies_confirmed :
    (∀ c m : Nat, ((LinearProbing.mk c m).inc).current = (c + 1) % m) ∧
    (∀ s m n : Nat,
      (QuadraticProbing.incN (n + 1) (QuadraticProbing.mk s m 1)).current =
        (s + sumSq (n + 1)) % m) ∧
    (∀ s : Nat,
      (QuadraticProbing.incN 1 (QuadraticProbing.mk s 8 1)).current = (s + 1) % 8 ∧
      (QuadraticProbing.incN 2 (QuadraticProbing.mk s 8 1)).current = (s + 5) % 8 ∧
      (QuadraticProbing.incN 3 (QuadraticProbing.mk s 8 1)).current = (s + 14) % 8 ∧
      (QuadraticProbing.incN 4 (QuadraticProbing.mk s 8 1)).current = (s + 30) % 8) := by
  refine ⟨fun c m => rfl, QuadraticProbing.incN_current, ?_⟩
  intro s
  refine ⟨?_, ?_, ?_, ?_⟩
  · have h := QuadraticProbing.incN_current s 8 0
    simpa [sumSq] using h
  · have h := QuadraticProbing.incN_current s 8 1
    simpa [sumSq] using h
  · have h := QuadraticProbing.incN_current s 8 2
    simpa [sumSq] using h
  · have h := QuadraticProbing.incN_current s 8 3
    simpa [sumSq] using h

/-- Claim C8, counterexample: `clear()` resets `first_ind` to 0 (hash_map.h
line 140), not to the end sentinel.  The cleared table below is reachable,
has `live_count = 0` and physical length 4, yet `first_ind = 0 ≠ 4`,
contradicting the claimed equivalence. -/
theorem C8_first_ind_counterexample :
    HashMap.Reachable idHash clearA ∧
    clearA.map_size = 0 ∧ clearA.first_ind = 0 ∧
    clearA.map_max_size * 2 = 4 ∧ clearA.hash_map.length = 4 :=
  ⟨HashMap.Reachable.clear (HashMap.Reachable.init 2),
   by decide, by decide, by decide, by decide⟩

/-- Claim C8, amended: in every reachable state `first_ind` is at most every
live slot index and is itself live (hence the least live index) whenever a
live slot exists; when `live_count = 0` it equals the end sentinel
`physical_length` *or* 0 — the latter exactly the post-`clear` case, which
refutes the original "equals the sentinel exactly when empty". -/
theorem C8_first_ind_amended {K V : Type} [DecidableEq K] (hash : K → Nat)
    (s : HashMap K V) (h : HashMap.Reachable hash s) :
    (∀ j, s.liveB j = true → s.first_ind ≤ j) ∧
    (0 < s.map_size → s.liveB s.first_ind = true) ∧
    (s.map_size = 0 → s.first_ind = s.map_max_size * 2 ∨ s.first_ind = 0) := by
  have hI := HashMap.Reachable_Inv hash h
  refine ⟨?_, fun hp => (hI.firstLeast hp).1, hI.firstZero⟩
  intro j hj
  by_cases hp : 0 < s.map_size
  · exact (hI.firstLeast hp).2 j hj
  · have h0 : s.map_size = 0 := by omega
    have hdead := s.all_dead_of_countLive_zero (by rw [← hI.sizeEq]; exact h0)
    rw [hdead j] at hj
    cases hj

/-- Witness for C8: the amended statement applied to the concrete reachable
table `HashMap.init 1`. -/
theorem C8_first_ind_amended_witness :
    (∀ j, (HashMap.init 1 : HashMap Nat Nat).liveB j = true →
      (HashMap.init 1 : HashMap Nat Nat).first_ind ≤ j) ∧
    (0 < (HashMap.init 1 : HashMap Nat Nat).map_size →
      (HashMap.init 1 : HashMap Nat Nat).liveB
        (HashMap.init 1 : HashMap Nat Nat).first_ind = true) ∧
    ((HashMap.init 1 : HashMap Nat Nat).map_size = 0 →
      (HashMap.init 1 : HashMap Nat Nat).first_ind =
        (HashMap.init 1 : HashMap Nat Nat).map_max_size * 2 ∨
      (HashMap.init 1 : HashMap Nat Nat).first_ind = 0) :=
  C8_first_ind_amended idHash (HashMap.init 1) (HashMap.Reachable.init 1)

/-- Claim C9, confirmed: `rehash(0)` on a default-constructed (zero-capacity)
table deterministically produces physical length 4 (capacity hint 2) for both
containers, and the resulting map is usable: a subsequent insertion installs
its entry and the key is findable.  On a capacity-2 table that is empty
(`size = 0`), `rehash(0)` also yields a nonzero physical length (2). -/
theorem C9_rehash_zero_confirmed :
    ((HashMap.init 0 : HashMap Nat Nat).rehash idHash 0).hash_map.length = 4 ∧
    ((HashMap.init 0 : HashMap Nat Nat).rehash idHash 0).map_max_size = 2 ∧
    ((HashMap.init 0 : HashMap Nat Nat).rehash idHash 0).map_size = 0 ∧
    ((HashSet.init 0 : HashSet Nat).rehash idHash 0).hash_set.length = 4 ∧
    ((HashSet.init 0 : HashSet Nat).rehash idHash 0).set_max_size = 2 ∧
    ((((HashMap.init 0 : HashMap Nat Nat).rehash idHash 0).emplace
        idHash 5 7).2.2 = true) ∧
    ((((HashMap.init 0 : HashMap Nat Nat).rehash idHash 0).emplace
        idHash 5 7).1.findValue idHash 5 = some 7) ∧
    ((HashMap.init 2 : HashMap Nat Nat).rehash idHash 0).hash_map.length = 2 := by
  decide

/-- Claim C10, counterexample: erasing an absent key can fail to return at
all.  On the reachable table below every slot of the physical-length-4 array
is occupied (two tombstones from erased keys 0 and 1, two live entries 2 and
3) while the live count is only 2, so the growth check never fires; the
lookup walk for the absent key 5 finds no empty slot and no match, never
satisfies its exit condition (the linear probe position is periodic with
period 4), and the C++ `erase(5)` loops forever — modelled by the `none`
results — instead of returning 0 and leaving the table unchanged. -/
theorem C10_erase_divergence_counterexample :
    HashMap.Reachable idHash fullG ∧
    fullG.erase_key idHash 5 = none ∧
    fullG.find_index idHash 5 false = none ∧
    (fullG.slotAt 0).isSome = true ∧ (fullG.slotAt 1).isSome = true ∧
    (fullG.slotAt 2).isSome = true ∧ (fullG.slotAt 3).isSome = true ∧
    fullG.hash_map.length = 4 ∧ fullG.map_size = 2 := by
  have h1 : fullC.erase_key idHash 0 = some (fullD, 1) := by decide
  have h2 : fullD.erase_key idHash 1 = some (fullE, 1) := by decide
  refine ⟨?_, by decide, by decide, by decide, by decide, by decide, by decide,
    by decide, by decide⟩
  exact HashMap.Reachable.emplace 3 0
    (HashMap.Reachable.emplace 2 0
      (HashMap.Reachable.erase 1 1
        (HashMap.Reachable.erase 0 1
          (HashMap.Reachable.emplace 1 0
            (HashMap.Reachable.emplace 0 0 (HashMap.Reachable.init 2))) h1) h2))

/-- Claim C10, amended: for every table (map or set) and key `k` with no live
entry, *provided the lookup can terminate* — the table has zero capacity, or
some probed slot is empty, or some occupied slot holds `k` (a tombstoned
match also stops the walk) — `erase(k)` returns 0 and leaves the entire table
state unchanged.  The termination proviso is forced by the counterexample. -/
theorem C10_erase_absent_amended {K V : Type} [DecidableEq K] (hash : K → Nat)
    (s : HashMap K V) (t : HashSet K) (k k' : K)
    (hterm : s.hash_map.length = 0 ∨ ∃ j, j < s.hash_map.length ∧
      ((s.slotAt j).isSome = false ∨ s.keyMatch k j = true))
    (habsent : ∀ j, j < s.hash_map.length →
      ¬(s.liveB j = true ∧ s.keyMatch k j = true))
    (hterm' : t.hash_set.length = 0 ∨ ∃ j, j < t.hash_set.length ∧
      ((t.slotAt j).isSome = false ∨ t.keyMatch k' j = true))
    (habsent' : ∀ j, j < t.hash_set.length →
      ¬(t.liveB j = true ∧ t.keyMatch k' j = true)) :
    s.erase_key hash k = some (s, 0) ∧ t.erase_key hash k' = some (t, 0) := by
  constructor
  · rw [HashMap.erase_key_eq hash s k
      (HashMap.find_index_absent hash s k hterm habsent), if_pos rfl]
  · rw [HashSet.erase_key_eq_set hash t k'
      (HashSet.find_index_absent_set hash t k' hterm' habsent'), if_pos rfl]

/-- Witness for C10: the amended statement applied to the concrete tables
`HashMap.init 1` and `HashSet.init 1` with the absent key 5. -/
theorem C10_erase_absent_amended_witness :
    (HashMap.init 1 : HashMap Nat Nat).erase_key idHash 5 =
      some (HashMap.init 1, 0) ∧
    (HashSet.init 1 : HashSet Nat).erase_key idHash 5 =
      some (HashSet.init 1, 0) :=
  C10_erase_absent_amended idHash (HashMap.init 1) (HashSet.init 1) 5 5
    (Or.inr ⟨0, by decide, Or.inl (by decide)⟩)
    (by decide)
    (Or.inr ⟨0, by decide, Or.inl (by decide)⟩)
    (by decide)

end OA
